import Mathlib

/-!
Verification of the qcvz quantum-circuit scheduling/layout library.

The Python source (src/qcvz/quantum_circuit.py, src/qcvz/visualization.py)
is shallowly embedded below: gate dictionaries become a structure of
optional fields, in-place mutation becomes explicit state passing, and
operations that can raise Python exceptions return `Option`/`Except` or a
state paired with an optional error.
-/

namespace QCVZ

/-- The `GateType` enum from quantum_circuit.py. -/
inductive GateType where
  | CNOT
  | CZ
  | Tof
  | HAD
  | S
  | T
  | Tdg
  | X
  | Z
  | CCZ
  | MEASURE
  | CONDITIONAL
deriving DecidableEq, Repr, Inhabited

/-- A Python gate dictionary: every key may be absent.  The `type` field
holds the `GateType` discriminant, `gate` is the inner gate of a
conditional operation. -/
structure Gate where
  type : Option GateType := none
  ctrl : Option Nat := none
  ctrl1 : Option Nat := none
  ctrl2 : Option Nat := none
  target : Option Nat := none
  qubit : Option Nat := none
  classical_bit : Option Nat := none
  gate : Option GateType := none
deriving DecidableEq, Repr, Inhabited

/-- The `QuantumCircuit` container: wire counts plus the ordered gate list. -/
structure QuantumCircuit where
  n_qubits : Nat := 0
  n_classical_bits : Nat := 0
  gates : List Gate := []
deriving DecidableEq, Repr, Inhabited

/-- Python exceptions raised by the embedded methods. -/
inductive PyError where
  | typeError (msg : String)
  | valueError (msg : String)
  | keyError (key : String)
deriving DecidableEq, Repr

/-- `QuantumCircuit.deps_of` (quantum_circuit.py lines 102-118).  Reading a
missing dictionary key raises `KeyError` in Python, so the embedding is
`Option`-valued; the returned list is read as a set (membership only). -/
def deps_of (g : Gate) : Option (List Nat) :=
  match g.type with
  | none => none
  | some GateType.CNOT =>
      match g.ctrl, g.target with
      | some c, some t => some [c, t]
      | _, _ => none
  | some GateType.CZ =>
      match g.ctrl, g.target with
      | some c, some t => some [c, t]
      | _, _ => none
  | some GateType.Tof =>
      match g.ctrl1, g.ctrl2, g.target with
      | some c1, some c2, some t => some [c1, c2, t]
      | _, _, _ => none
  | some GateType.MEASURE =>
      match g.qubit with
      | some q => some [q]
      | none => none
  | some GateType.CONDITIONAL =>
      match g.target with
      | some t => some [t]
      | none => none
  | some _ =>
      match g.target with
      | some t => some [t]
      | none => some []

/-- `max(xs, default=-1)` in Python: the maximum of the list, or `-1`
when the list is empty. -/
def listMaxD (xs : List Int) : Int :=
  match xs with
  | [] => -1
  | x :: rest => rest.foldl max x

/-- Minimum of a nonempty list of wire indices (`min(deps)` in Python);
`0` on the empty list, which the source never evaluates. -/
def minL (xs : List Nat) : Nat :=
  match xs with
  | [] => 0
  | x :: rest => rest.foldl min x

/-- Maximum of a nonempty list of wire indices (`max(deps)` in Python);
`0` on the empty list, which the source never evaluates. -/
def maxL (xs : List Nat) : Nat :=
  match xs with
  | [] => 0
  | x :: rest => rest.foldl max x

/-- `range(a, b + 1)` in Python: the wires from `a` to `b` inclusive. -/
def rangeIncl (a b : Nat) : List Nat :=
  List.range' a (b + 1 - a)

/-- The list of current levels of the dependency wires,
`[level[d] for d in deps]`, with reads assumed in bounds. -/
def readLevels (lvl : List Int) (deps : List Nat) : List Int :=
  deps.map (fun d => lvl.getD d (-1))

/-- `for dep in deps: level[dep] = max_level` (visualization.py 142-143). -/
def writeAll (lvl : List Int) (deps : List Nat) (v : Int) : List Int :=
  deps.foldl (fun a d => a.set d v) lvl

/-- First half of the overlap-suppression block (visualization.py
131-134): if the dependency set has wires below `n_qubits`, add the full
contiguous range between their minimum and maximum. -/
def widenQuantum (nQ : Nat) (deps : List Nat) : List Nat :=
  let qd := deps.filter (fun d => d < nQ)
  if qd.isEmpty then deps else deps ++ rangeIncl (minL qd) (maxL qd)

/-- Second half of the overlap-suppression block (visualization.py
136-139), over the wires at or above `n_qubits`; it runs on the already
quantum-widened set, as in the source. -/
def widenClassical (nQ : Nat) (deps : List Nat) : List Nat :=
  let cd := deps.filter (fun d => nQ ≤ d)
  if cd.isEmpty then deps else deps ++ rangeIncl (minL cd) (maxL cd)

/-- The overlap-suppression widening (visualization.py lines 130-139). -/
def widen (nQ : Nat) (deps : List Nat) : List Nat :=
  widenClassical nQ (widenQuantum nQ deps)

/-- The classical-wire additions of the scheduler (visualization.py
124-128): MEASURE and CONDITIONAL gates carrying a `classical_bit` field
also depend on wire `n_qubits + classical_bit`. -/
def classicalAdd (nQ : Nat) (g : Gate) (deps0 : List Nat) : List Nat :=
  if g.type = some GateType.MEASURE ∨ g.type = some GateType.CONDITIONAL then
    match g.classical_bit with
    | some cb => deps0 ++ [nQ + cb]
    | none => deps0
  else deps0

/-- The full dependency set of one gate as used by the scheduler
(visualization.py lines 121-139): `deps_of`, plus the classical wire for
MEASURE/CONDITIONAL, then the widening when `remove_overlap` is set. -/
def schedDeps (nQ : Nat) (rm : Bool) (g : Gate) : Option (List Nat) :=
  (deps_of g).map (fun deps0 =>
    if rm then widen nQ (classicalAdd nQ g deps0) else classicalAdd nQ g deps0)

/-- The scheduling loop of `schedule_gates` (visualization.py 120-144):
one pass over the gates, threading the per-wire `level` array.  A
dependency wire outside the array raises `IndexError` in Python, hence
the `Option`; the returned list holds the level of each gate in order. -/
def schedGo (nQ : Nat) (rm : Bool) : List Gate → List Int → Option (List Int)
  | [], _ => some []
  | g :: gs, lvl =>
    match schedDeps nQ rm g with
    | none => none
    | some deps =>
      if deps.all (fun d => d < lvl.length) then
        let m : Int := 1 + listMaxD (readLevels lvl deps)
        match schedGo nQ rm gs (writeAll lvl deps m) with
        | none => none
        | some rest => some (m :: rest)
      else none

/-- `QuantumCircuitVisualizer.schedule_gates` (visualization.py 114-145):
the level array has one slot per unified wire, initialized to `-1`. -/
def schedule_gates (c : QuantumCircuit) (rm : Bool) : Option (List Int) :=
  schedGo c.n_qubits rm c.gates
    (List.replicate (c.n_qubits + c.n_classical_bits) (-1))

/-- The spec's level formula, written from its words:
`level = 1 + max(currentLevel[w] for w in dependencySet)`, or `0` if the
dependency set is empty.  Used to compare against the source loop body. -/
def specLevel (lvl : List Int) (deps : List Nat) : Int :=
  if deps = [] then 0 else 1 + listMaxD (readLevels lvl deps)

/-- `QuantumCircuit.add_gate` (quantum_circuit.py 97-100): the only check
is that the `type` key is present; `gate.copy()` is a value copy. -/
def add_gate (c : QuantumCircuit) (g : Gate) : Except PyError QuantumCircuit :=
  match g.type with
  | none =>
      Except.error (PyError.valueError "Gate dictionary must include a type field of GateType.")
  | some _ => Except.ok { c with gates := c.gates ++ [g] }

/-- The per-gate index shifting of `QuantumCircuit.append`
(quantum_circuit.py 63-81): dispatch on the `type` key, shift the
operand fields of the matched variant; a missing required key raises
`KeyError`, hence the `Option`. -/
def shiftGate (qOff cOff : Nat) (g : Gate) : Option Gate :=
  match g.type with
  | none => none
  | some GateType.MEASURE =>
      match g.classical_bit, g.qubit with
      | some cb, some q =>
          some { g with classical_bit := some (cb + cOff), qubit := some (q + qOff) }
      | _, _ => none
  | some GateType.CONDITIONAL =>
      match g.classical_bit, g.target with
      | some cb, some t =>
          let g2 := { g with classical_bit := some (cb + cOff), target := some (t + qOff) }
          match g.ctrl with
          | some c => some { g2 with ctrl := some (c + qOff) }
          | none => some g2
      | _, _ => none
  | some GateType.CNOT =>
      match g.ctrl, g.target with
      | some c, some t => some { g with ctrl := some (c + qOff), target := some (t + qOff) }
      | _, _ => none
  | some GateType.CZ =>
      match g.ctrl, g.target with
      | some c, some t => some { g with ctrl := some (c + qOff), target := some (t + qOff) }
      | _, _ => none
  | some GateType.Tof =>
      match g.ctrl1, g.ctrl2, g.target with
      | some c1, some c2, some t =>
          some { g with ctrl1 := some (c1 + qOff), ctrl2 := some (c2 + qOff),
                        target := some (t + qOff) }
      | _, _, _ => none
  | some _ =>
      match g.target with
      | some t => some { g with target := some (t + qOff) }
      | none => some g

/-- The copying loop of `QuantumCircuit.append` (quantum_circuit.py
63-82): `self` is mutated in place, so on a `KeyError` the partially
updated state is what the caller observes; the loop therefore returns
the final state together with the error, if any. -/
def appendLoop (qOff cOff : Nat) : QuantumCircuit → List Gate → QuantumCircuit × Option PyError
  | c, [] => (c, none)
  | c, g :: gs =>
    match shiftGate qOff cOff g with
    | some g2 => appendLoop qOff cOff { c with gates := c.gates ++ [g2] } gs
    | none => (c, some (PyError.keyError "missing gate field"))

/-- `QuantumCircuit.append` (quantum_circuit.py 54-82) past the
`isinstance` check: the wire counts are updated before the copy loop
runs. -/
def append (self other : QuantumCircuit) : QuantumCircuit × Option PyError :=
  let classical_offset := self.n_classical_bits
  let qubit_offset := self.n_qubits
  let self2 : QuantumCircuit :=
    { self with
      n_qubits := max self.n_qubits (other.n_qubits + qubit_offset),
      n_classical_bits := self.n_classical_bits + other.n_classical_bits }
  appendLoop qubit_offset classical_offset self2 other.gates

/-- A dynamically typed argument handed to `append`: either a circuit or
some other Python object (summarized by a tag). -/
inductive PyValue where
  | circuit (c : QuantumCircuit)
  | nonCircuit (tag : String)

/-- `QuantumCircuit.append` including the `isinstance` guard
(quantum_circuit.py 55-56): a non-circuit argument raises `TypeError`
before any state is touched. -/
def appendDyn (self : QuantumCircuit) (v : PyValue) : QuantumCircuit × Option PyError :=
  match v with
  | PyValue.circuit other => append self other
  | PyValue.nonCircuit _ =>
      (self, some (PyError.typeError "Can only append another QuantumCircuit"))

/-- A gate carries exactly the operand fields of its variant, per the
field table (the `ctrl` of a CONDITIONAL is optional, the `target` of a
non-tabled kind is optional, matching the source's fall-through). -/
def tableFields (g : Gate) : Bool :=
  match g.type with
  | none => false
  | some GateType.CNOT =>
      g.ctrl.isSome && g.target.isSome && g.ctrl1.isNone && g.ctrl2.isNone &&
        g.qubit.isNone && g.classical_bit.isNone
  | some GateType.CZ =>
      g.ctrl.isSome && g.target.isSome && g.ctrl1.isNone && g.ctrl2.isNone &&
        g.qubit.isNone && g.classical_bit.isNone
  | some GateType.Tof =>
      g.ctrl1.isSome && g.ctrl2.isSome && g.target.isSome && g.ctrl.isNone &&
        g.qubit.isNone && g.classical_bit.isNone
  | some GateType.MEASURE =>
      g.qubit.isSome && g.classical_bit.isSome && g.ctrl.isNone && g.ctrl1.isNone &&
        g.ctrl2.isNone && g.target.isNone
  | some GateType.CONDITIONAL =>
      g.classical_bit.isSome && g.target.isSome && g.ctrl1.isNone && g.ctrl2.isNone &&
        g.qubit.isNone
  | some _ =>
      g.ctrl.isNone && g.ctrl1.isNone && g.ctrl2.isNone && g.qubit.isNone &&
        g.classical_bit.isNone

/-- Well-formedness used by the scheduler claims: the variant's required
fields are present and every referenced wire index is in bounds. -/
def WFGate (nQ nC : Nat) (g : Gate) : Bool :=
  match g.type with
  | none => false
  | some GateType.CNOT =>
      g.ctrl.any (fun c => c < nQ) && g.target.any (fun t => t < nQ)
  | some GateType.CZ =>
      g.ctrl.any (fun c => c < nQ) && g.target.any (fun t => t < nQ)
  | some GateType.Tof =>
      g.ctrl1.any (fun c => c < nQ) && g.ctrl2.any (fun c => c < nQ) &&
        g.target.any (fun t => t < nQ)
  | some GateType.MEASURE =>
      g.qubit.any (fun q => q < nQ) && g.classical_bit.any (fun b => b < nC)
  | some GateType.CONDITIONAL =>
      g.target.any (fun t => t < nQ) && g.classical_bit.any (fun b => b < nC)
  | some _ =>
      match g.target with
      | some t => t < nQ
      | none => true

/-- Shorthand gate builders mirroring the `add_*` helpers
(quantum_circuit.py 120-192). -/
def hGate (t : Nat) : Gate := { type := some GateType.HAD, target := some t }

def xGate (t : Nat) : Gate := { type := some GateType.X, target := some t }

def cnotGate (c t : Nat) : Gate :=
  { type := some GateType.CNOT, ctrl := some c, target := some t }

def measureGate (q cb : Nat) : Gate :=
  { type := some GateType.MEASURE, qubit := some q, classical_bit := some cb }

def condCnotGate (cb c t : Nat) : Gate :=
  { type := some GateType.CONDITIONAL, classical_bit := some cb, ctrl := some c,
    target := some t, gate := some GateType.CNOT }

/-- H(q0); X(q0) on one qubit — the spec's sequential-gates example. -/
def circHX : QuantumCircuit := { n_qubits := 1, gates := [hGate 0, xGate 0] }

/-- H(q0); H(q1) on two qubits — the spec's disjoint-qubits example. -/
def circHH : QuantumCircuit := { n_qubits := 2, gates := [hGate 0, hGate 1] }

/-- CNOT(0,3); H(2) on four qubits — the spec's overlap-suppression example. -/
def circC4 : QuantumCircuit := { n_qubits := 4, gates := [cnotGate 0 3, hGate 2] }

/-- The spec's composition example: self has 2 qubits and a CNOT. -/
def circB : QuantumCircuit := { n_qubits := 2, gates := [cnotGate 0 1] }

/-- The spec's composition example: other has 2 qubits, 1 classical bit
and a Measure(qubit=1, classicalBit=0). -/
def circA : QuantumCircuit :=
  { n_qubits := 2, n_classical_bits := 1, gates := [measureGate 1 0] }

/-- A CNOT dictionary whose operand fields are absent: `add_gate`
accepts it, since only the `type` key is checked. -/
def bareCnot : Gate := { type := some GateType.CNOT }

/-- A circuit whose second gate is missing its required fields, used to
exhibit a partially applied composition. -/
def circBad : QuantumCircuit := { n_qubits := 1, gates := [hGate 0, bareCnot] }

/-- An empty receiver for the failing-composition counterexample. -/
def circRecv : QuantumCircuit := { n_qubits := 1 }

/-!
Heap model for `QuantumCircuit.copy` (quantum_circuit.py 88-93).  Python
gate dictionaries are heap objects; aliasing is what the deep-copy claim
is about, so here a circuit holds addresses into an explicit store, and
`copy`'s `[gate.copy() for gate in self.gates]` allocates a fresh cell
per gate at the end of the store.
-/

/-- A circuit whose gate list holds store addresses. -/
structure CircuitRef where
  n_qubits : Nat := 0
  n_classical_bits : Nat := 0
  gateAddrs : List Nat := []
deriving DecidableEq, Repr

/-- The gate contents a circuit reference sees in a given store. -/
def readGates (h : List Gate) (c : CircuitRef) : List (Option Gate) :=
  c.gateAddrs.map (fun a => h.get? a)

/-- `QuantumCircuit.copy` over the store model: equal wire counts, and a
fresh cell holding a copy of each gate, appended to the store. -/
def copyCirc (h : List Gate) (c : CircuitRef) : List Gate × CircuitRef :=
  (h ++ c.gateAddrs.map (fun a => (h.get? a).getD default),
   { n_qubits := c.n_qubits, n_classical_bits := c.n_classical_bits,
     gateAddrs := (List.range c.gateAddrs.length).map (fun k => h.length + k) })

/-- In-place mutation of the gate dictionary stored at an address. -/
def setGateAt (h : List Gate) (addr : Nat) (g : Gate) : List Gate :=
  h.set addr g

/-! ### Generic list lemmas -/

theorem le_foldl_max {α : Type} [LinearOrder α] (i : α) (xs : List α) :
    i ≤ xs.foldl max i := by
  induction xs generalizing i with
  | nil => exact le_refl i
  | cons x rest ih => exact le_trans (le_max_left i x) (ih (max i x))

theorem mem_le_foldl_max {α : Type} [LinearOrder α] {x : α} {xs : List α}
    (i : α) (hx : x ∈ xs) : x ≤ xs.foldl max i := by
  induction xs generalizing i with
  | nil => cases hx
  | cons y rest ih =>
    rcases List.mem_cons.mp hx with h | h
    · subst h
      exact le_trans (le_max_right i x) (le_foldl_max (max i x) rest)
    · exact ih (max i y) h

theorem foldl_max_mem {α : Type} [LinearOrder α] (i : α) (xs : List α) :
    xs.foldl max i = i ∨ xs.foldl max i ∈ xs := by
  induction xs generalizing i with
  | nil => exact Or.inl rfl
  | cons y rest ih =>
    rcases ih (max i y) with h | h
    · rw [List.foldl_cons, h]
      rcases max_choice i y with hm | hm
      · exact Or.inl hm
      · exact Or.inr (by rw [hm]; exact List.mem_cons_self y rest)
    · exact Or.inr (List.mem_cons_of_mem y h)

theorem foldl_min_le {α : Type} [LinearOrder α] (i : α) (xs : List α) :
    xs.foldl min i ≤ i := by
  induction xs generalizing i with
  | nil => exact le_refl i
  | cons x rest ih => exact le_trans (ih (min i x)) (min_le_left i x)

theorem foldl_min_le_mem {α : Type} [LinearOrder α] {x : α} {xs : List α}
    (i : α) (hx : x ∈ xs) : xs.foldl min i ≤ x := by
  induction xs generalizing i with
  | nil => cases hx
  | cons y rest ih =>
    rcases List.mem_cons.mp hx with h | h
    · subst h
      exact le_trans (foldl_min_le (min i x) rest) (min_le_right i x)
    · exact ih (min i y) h

theorem foldl_min_mem {α : Type} [LinearOrder α] (i : α) (xs : List α) :
    xs.foldl min i = i ∨ xs.foldl min i ∈ xs := by
  induction xs generalizing i with
  | nil => exact Or.inl rfl
  | cons y rest ih =>
    rcases ih (min i y) with h | h
    · rw [List.foldl_cons, h]
      rcases min_choice i y with hm | hm
      · exact Or.inl hm
      · exact Or.inr (by rw [hm]; exact List.mem_cons_self y rest)
    · exact Or.inr (List.mem_cons_of_mem y h)

theorem mem_le_listMaxD {x : Int} {xs : List Int} (hx : x ∈ xs) :
    x ≤ listMaxD xs := by
  cases xs with
  | nil => cases hx
  | cons y rest =>
    rcases List.mem_cons.mp hx with h | h
    · subst h; exact le_foldl_max x rest
    · exact mem_le_foldl_max y h

theorem listMaxD_mem {xs : List Int} (hx : xs ≠ []) : listMaxD xs ∈ xs := by
  cases xs with
  | nil => exact absurd rfl hx
  | cons y rest =>
    rcases foldl_max_mem y rest with h | h
    · rw [listMaxD, h]; exact List.mem_cons_self y rest
    · exact List.mem_cons_of_mem y h

theorem neg_one_le_listMaxD {xs : List Int} (h : ∀ x ∈ xs, -1 ≤ x) :
    -1 ≤ listMaxD xs := by
  cases hxs : xs with
  | nil => simp [listMaxD]
  | cons y rest =>
    subst hxs
    exact h _ (listMaxD_mem (by simp))

theorem minL_mem {xs : List Nat} (hx : xs ≠ []) : minL xs ∈ xs := by
  cases xs with
  | nil => exact absurd rfl hx
  | cons y rest =>
    rcases foldl_min_mem y rest with h | h
    · rw [minL, h]; exact List.mem_cons_self y rest
    · exact List.mem_cons_of_mem y h

theorem maxL_mem {xs : List Nat} (hx : xs ≠ []) : maxL xs ∈ xs := by
  cases xs with
  | nil => exact absurd rfl hx
  | cons y rest =>
    rcases foldl_max_mem y rest with h | h
    · rw [maxL, h]; exact List.mem_cons_self y rest
    · exact List.mem_cons_of_mem y h

theorem minL_le_mem {x : Nat} {xs : List Nat} (hx : x ∈ xs) : minL xs ≤ x := by
  cases xs with
  | nil => cases hx
  | cons y rest =>
    rcases List.mem_cons.mp hx with h | h
    · subst h; exact foldl_min_le x rest
    · exact foldl_min_le_mem y h

theorem mem_le_maxL {x : Nat} {xs : List Nat} (hx : x ∈ xs) : x ≤ maxL xs := by
  cases xs with
  | nil => cases hx
  | cons y rest =>
    rcases List.mem_cons.mp hx with h | h
    · subst h; exact le_foldl_max x rest
    · exact mem_le_foldl_max y h

theorem mem_rangeIncl {w a b : Nat} : w ∈ rangeIncl a b ↔ a ≤ w ∧ w ≤ b := by
  rw [rangeIncl, List.mem_range'_1]
  omega

theorem writeAll_cons (lvl : List Int) (d : Nat) (ds : List Nat) (v : Int) :
    writeAll lvl (d :: ds) v = writeAll (lvl.set d v) ds v := rfl

theorem writeAll_length (lvl : List Int) (deps : List Nat) (v : Int) :
    (writeAll lvl deps v).length = lvl.length := by
  induction deps generalizing lvl with
  | nil => rfl
  | cons d ds ih =>
    rw [writeAll_cons, ih (lvl.set d v), List.length_set]

theorem writeAll_getD (lvl : List Int) (deps : List Nat) (v : Int) (w : Nat) :
    (writeAll lvl deps v).getD w (-1) =
      if w ∈ deps ∧ w < lvl.length then v else lvl.getD w (-1) := by
  induction deps generalizing lvl with
  | nil => simp [writeAll]
  | cons d ds ih =>
    rw [writeAll_cons, ih (lvl.set d v), List.length_set]
    by_cases hw : w < lvl.length
    · by_cases hmem : w ∈ ds
      · simp [hmem, hw]
      · by_cases hwd : w = d
        · subst hwd
          simp [hmem, hw, List.getD_eq_getElem?_getD, List.getElem?_set_self]
        · simp [hmem, hw, hwd, List.getD_eq_getElem?_getD,
            List.getElem?_set_ne (by omega : d ≠ w)]
    · have hnone : lvl[w]? = none := by
        rw [List.getElem?_eq_none_iff]; omega
      simp only [hw, and_false, if_false]
      by_cases hwd : w = d
      · subst hwd
        simp [List.getD_eq_getElem?_getD, List.getElem?_set, hw, hnone]
      · simp [List.getD_eq_getElem?_getD, List.getElem?_set_ne (by omega : d ≠ w)]

/-! ### Scheduler facts -/

theorem schedGo_nil (nQ : Nat) (rm : Bool) (lvl : List Int) :
    schedGo nQ rm [] lvl = some [] := rfl

theorem schedGo_cons (nQ : Nat) (rm : Bool) (g : Gate) (gs : List Gate) (lvl : List Int) :
    schedGo nQ rm (g :: gs) lvl =
      match schedDeps nQ rm g with
      | none => none
      | some deps =>
        if deps.all (fun d => d < lvl.length) then
          match schedGo nQ rm gs
              (writeAll lvl deps (1 + listMaxD (readLevels lvl deps))) with
          | none => none
          | some rest => some ((1 + listMaxD (readLevels lvl deps)) :: rest)
        else none := rfl

theorem schedGo_cons_inv {nQ : Nat} {rm : Bool} {g : Gate} {gs : List Gate}
    {lvl : List Int} {out : List Int}
    (h : schedGo nQ rm (g :: gs) lvl = some out) :
    ∃ deps rest, schedDeps nQ rm g = some deps ∧
      (deps.all (fun d => d < lvl.length)) = true ∧
      schedGo nQ rm gs (writeAll lvl deps (1 + listMaxD (readLevels lvl deps)))
        = some rest ∧
      out = (1 + listMaxD (readLevels lvl deps)) :: rest := by
  rw [schedGo_cons] at h
  split at h
  next hd => cases h
  next deps hd =>
    split at h
    next hall =>
      split at h
      next hr => cases h
      next rest hr =>
        cases h
        exact ⟨deps, rest, hd, hall, hr, rfl⟩
    next hall => cases h

theorem step_mono (lvl : List Int) (deps : List Nat) (w : Nat) :
    lvl.getD w (-1) ≤
      (writeAll lvl deps (1 + listMaxD (readLevels lvl deps))).getD w (-1) := by
  rw [writeAll_getD]
  by_cases hc : w ∈ deps ∧ w < lvl.length
  · rw [if_pos hc]
    have hmem : lvl.getD w (-1) ∈ readLevels lvl deps :=
      List.mem_map_of_mem (fun d => lvl.getD d (-1)) hc.1
    have := mem_le_listMaxD hmem
    omega
  · rw [if_neg hc]

theorem schedGo_length {nQ : Nat} {rm : Bool} (gs : List Gate) :
    ∀ (lvl out : List Int), schedGo nQ rm gs lvl = some out →
      out.length = gs.length := by
  induction gs with
  | nil =>
    intro lvl out h
    rw [schedGo_nil] at h
    cases h
    rfl
  | cons g gs ih =>
    intro lvl out h
    obtain ⟨deps, rest, _, _, hr, hout⟩ := schedGo_cons_inv h
    subst hout
    simp [ih _ _ hr]

theorem schedGo_lvl_lt {nQ : Nat} {rm : Bool} (gs : List Gate) :
    ∀ (lvl out : List Int),
      schedGo nQ rm gs lvl = some out →
      ∀ (j : Nat) (dj : List Nat) (w : Nat),
        j < gs.length →
        schedDeps nQ rm (gs.getD j default) = some dj →
        w ∈ dj →
        lvl.getD w (-1) < out.getD j 0 := by
  induction gs with
  | nil => intro lvl out _ j dj w hj; simp at hj
  | cons g gs ih =>
    intro lvl out h j dj w hj hdj hw
    obtain ⟨deps, rest, hd, hall, hr, hout⟩ := schedGo_cons_inv h
    subst hout
    cases j with
    | zero =>
      have hdg : (g :: gs).getD 0 default = g := rfl
      rw [hdg, hd] at hdj
      cases Option.some.inj hdj
      have hmem : lvl.getD w (-1) ∈ readLevels lvl dj :=
        List.mem_map_of_mem (fun d => lvl.getD d (-1)) hw
      have hle := mem_le_listMaxD hmem
      have hc : (((1 + listMaxD (readLevels lvl dj))) :: rest).getD 0 0
          = 1 + listMaxD (readLevels lvl dj) := rfl
      rw [hc]
      omega
    | succ j' =>
      have hj' : j' < gs.length := Nat.lt_of_succ_lt_succ hj
      have hdg : (g :: gs).getD (j' + 1) default = gs.getD j' default := rfl
      rw [hdg] at hdj
      have htail := ih _ _ hr j' dj w hj' hdj hw
      have hmono := step_mono lvl deps w
      have hc : (((1 + listMaxD (readLevels lvl deps))) :: rest).getD (j' + 1) 0
          = rest.getD j' 0 := rfl
      rw [hc]
      omega

theorem schedGo_causal {nQ : Nat} {rm : Bool} (gs : List Gate) :
    ∀ (lvl out : List Int),
      schedGo nQ rm gs lvl = some out →
      ∀ (i j : Nat) (di dj : List Nat) (w : Nat),
        i < j → j < gs.length →
        schedDeps nQ rm (gs.getD i default) = some di →
        schedDeps nQ rm (gs.getD j default) = some dj →
        w ∈ di → w ∈ dj →
        out.getD i 0 < out.getD j 0 := by
  induction gs with
  | nil => intro lvl out _ i j di dj w _ hj; simp at hj
  | cons g gs ih =>
    intro lvl out h i j di dj w hij hj hdi hdj hwi hwj
    obtain ⟨deps, rest, hd, hall, hr, hout⟩ := schedGo_cons_inv h
    subst hout
    cases i with
    | zero =>
      have hdg : (g :: gs).getD 0 default = g := rfl
      rw [hdg, hd] at hdi
      cases Option.some.inj hdi
      cases j with
      | zero => omega
      | succ j' =>
        have hj' : j' < gs.length := Nat.lt_of_succ_lt_succ hj
        have hdg2 : (g :: gs).getD (j' + 1) default = gs.getD j' default := rfl
        rw [hdg2] at hdj
        -- the array entry at w after the head step is exactly the head level
        have hwlt : w < lvl.length := by
          have := List.all_eq_true.mp hall w hwi
          exact of_decide_eq_true this
        have hset : (writeAll lvl di (1 + listMaxD (readLevels lvl di))).getD w (-1)
            = 1 + listMaxD (readLevels lvl di) := by
          rw [writeAll_getD, if_pos ⟨hwi, hwlt⟩]
        have htail := schedGo_lvl_lt gs _ _ hr j' dj w hj' hdj hwj
        rw [hset] at htail
        have hc0 : (((1 + listMaxD (readLevels lvl di))) :: rest).getD 0 0
            = 1 + listMaxD (readLevels lvl di) := rfl
        have hcj : (((1 + listMaxD (readLevels lvl di))) :: rest).getD (j' + 1) 0
            = rest.getD j' 0 := rfl
        rw [hc0, hcj]
        omega
    | succ i' =>
      cases j with
      | zero => omega
      | succ j' =>
        have hij' : i' < j' := Nat.lt_of_succ_lt_succ hij
        have hj' : j' < gs.length := Nat.lt_of_succ_lt_succ hj
        have hdgi : (g :: gs).getD (i' + 1) default = gs.getD i' default := rfl
        have hdgj : (g :: gs).getD (j' + 1) default = gs.getD j' default := rfl
        rw [hdgi] at hdi
        rw [hdgj] at hdj
        have := ih _ _ hr i' j' di dj w hij' hj' hdi hdj hwi hwj
        have hci : (((1 + listMaxD (readLevels lvl deps))) :: rest).getD (i' + 1) 0
            = rest.getD i' 0 := rfl
        have hcj : (((1 + listMaxD (readLevels lvl deps))) :: rest).getD (j' + 1) 0
            = rest.getD j' 0 := rfl
        rw [hci, hcj]
        omega

/-! ### Widening facts -/

theorem mem_widenQuantum {nQ : Nat} {deps : List Nat} {w : Nat} :
    w ∈ widenQuantum nQ deps ↔ w ∈ deps ∨
      (∃ a ∈ deps, ∃ b ∈ deps, a < nQ ∧ b < nQ ∧ a ≤ w ∧ w ≤ b) := by
  simp only [widenQuantum]
  by_cases hq : (deps.filter (fun d => d < nQ)).isEmpty
  · rw [if_pos hq]
    constructor
    · exact Or.inl
    · rintro (h | ⟨a, ha, b, hb, haq, hbq, _, _⟩)
      · exact h
      · exfalso
        have : a ∈ deps.filter (fun d => d < nQ) :=
          List.mem_filter.mpr ⟨ha, decide_eq_true haq⟩
        rw [List.isEmpty_iff] at hq
        rw [hq] at this
        cases this
  · rw [if_neg hq]
    rw [List.isEmpty_iff] at hq
    constructor
    · intro h
      rcases List.mem_append.mp h with h | h
      · exact Or.inl h
      · rcases mem_rangeIncl.mp h with ⟨h1, h2⟩
        refine Or.inr ⟨minL _, ?_, maxL _, ?_, ?_, ?_, h1, h2⟩
        · exact (List.mem_filter.mp (minL_mem hq)).1
        · exact (List.mem_filter.mp (maxL_mem hq)).1
        · exact of_decide_eq_true (List.mem_filter.mp (minL_mem hq)).2
        · exact of_decide_eq_true (List.mem_filter.mp (maxL_mem hq)).2
    · rintro (h | ⟨a, ha, b, hb, haq, hbq, haw, hwb⟩)
      · exact List.mem_append.mpr (Or.inl h)
      · refine List.mem_append.mpr (Or.inr (mem_rangeIncl.mpr ⟨?_, ?_⟩))
        · exact le_trans (minL_le_mem (List.mem_filter.mpr ⟨ha, decide_eq_true haq⟩)) haw
        · exact le_trans hwb (mem_le_maxL (List.mem_filter.mpr ⟨hb, decide_eq_true hbq⟩))

theorem mem_widenClassical {nQ : Nat} {deps : List Nat} {w : Nat} :
    w ∈ widenClassical nQ deps ↔ w ∈ deps ∨
      (∃ a ∈ deps, ∃ b ∈ deps, nQ ≤ a ∧ nQ ≤ b ∧ a ≤ w ∧ w ≤ b) := by
  simp only [widenClassical]
  by_cases hq : (deps.filter (fun d => nQ ≤ d)).isEmpty
  · rw [if_pos hq]
    constructor
    · exact Or.inl
    · rintro (h | ⟨a, ha, b, hb, haq, hbq, _, _⟩)
      · exact h
      · exfalso
        have : a ∈ deps.filter (fun d => nQ ≤ d) :=
          List.mem_filter.mpr ⟨ha, decide_eq_true haq⟩
        rw [List.isEmpty_iff] at hq
        rw [hq] at this
        cases this
  · rw [if_neg hq]
    rw [List.isEmpty_iff] at hq
    constructor
    · intro h
      rcases List.mem_append.mp h with h | h
      · exact Or.inl h
      · rcases mem_rangeIncl.mp h with ⟨h1, h2⟩
        refine Or.inr ⟨minL _, ?_, maxL _, ?_, ?_, ?_, h1, h2⟩
        · exact (List.mem_filter.mp (minL_mem hq)).1
        · exact (List.mem_filter.mp (maxL_mem hq)).1
        · exact of_decide_eq_true (List.mem_filter.mp (minL_mem hq)).2
        · exact of_decide_eq_true (List.mem_filter.mp (maxL_mem hq)).2
    · rintro (h | ⟨a, ha, b, hb, haq, hbq, haw, hwb⟩)
      · exact List.mem_append.mpr (Or.inl h)
      · refine List.mem_append.mpr (Or.inr (mem_rangeIncl.mpr ⟨?_, ?_⟩))
        · exact le_trans (minL_le_mem (List.mem_filter.mpr ⟨ha, decide_eq_true haq⟩)) haw
        · exact le_trans hwb (mem_le_maxL (List.mem_filter.mpr ⟨hb, decide_eq_true hbq⟩))

theorem mem_widen {nQ : Nat} {deps : List Nat} {w : Nat} :
    w ∈ widen nQ deps ↔ w ∈ deps ∨
      (∃ a ∈ deps, ∃ b ∈ deps, a < nQ ∧ b < nQ ∧ a ≤ w ∧ w ≤ b) ∨
      (∃ a ∈ deps, ∃ b ∈ deps, nQ ≤ a ∧ nQ ≤ b ∧ a ≤ w ∧ w ≤ b) := by
  have hback : ∀ x : Nat, x ∈ widenQuantum nQ deps → nQ ≤ x → x ∈ deps := by
    intro x hx hnx
    rcases mem_widenQuantum.mp hx with h | ⟨a, _, b, _, _, hbq, _, hxb⟩
    · exact h
    · omega
  rw [widen, mem_widenClassical]
  constructor
  · rintro (h | ⟨a, ha, b, hb, haq, hbq, haw, hwb⟩)
    · rcases mem_widenQuantum.mp h with h | h
      · exact Or.inl h
      · exact Or.inr (Or.inl h)
    · exact Or.inr (Or.inr ⟨a, hback a ha haq, b, hback b hb hbq, haq, hbq, haw, hwb⟩)
  · rintro (h | h | ⟨a, ha, b, hb, haq, hbq, haw, hwb⟩)
    · exact Or.inl (mem_widenQuantum.mpr (Or.inl h))
    · exact Or.inl (mem_widenQuantum.mpr (Or.inr h))
    · refine Or.inr ⟨a, ?_, b, ?_, haq, hbq, haw, hwb⟩
      · exact mem_widenQuantum.mpr (Or.inl ha)
      · exact mem_widenQuantum.mpr (Or.inl hb)

theorem widen_bound {nQ B : Nat} {deps : List Nat}
    (hb : ∀ d ∈ deps, d < B) : ∀ d ∈ widen nQ deps, d < B := by
  intro d hd
  rcases mem_widen.mp hd with h | ⟨_, _, b, hb2, _, _, _, hwb⟩ | ⟨_, _, b, hb2, _, _, _, hwb⟩
  · exact hb d h
  · exact lt_of_le_of_lt hwb (hb b hb2)
  · exact lt_of_le_of_lt hwb (hb b hb2)

theorem ite_widen_bound {nQ B : Nat} {deps : List Nat} (rm : Bool)
    (hb : ∀ d ∈ deps, d < B) :
    ∀ d ∈ (if rm then widen nQ deps else deps), d < B := by
  cases rm
  · simpa using hb
  · simpa using widen_bound hb

/-! ### Dependency sets of well-formed gates -/

theorem option_any_lt {o : Option Nat} {B : Nat}
    (h : o.any (fun x => x < B) = true) : ∃ x, o = some x ∧ x < B := by
  cases o with
  | none => simp [Option.any] at h
  | some x => exact ⟨x, rfl, by simpa [Option.any] using h⟩

theorem schedDeps_eq {nQ : Nat} {rm : Bool} {g : Gate} {deps0 : List Nat}
    (hd : deps_of g = some deps0) :
    schedDeps nQ rm g =
      some (if rm then widen nQ (classicalAdd nQ g deps0)
            else classicalAdd nQ g deps0) := by
  rw [schedDeps, hd, Option.map_some']

theorem schedDeps_WF {nQ nC : Nat} (rm : Bool) {g : Gate}
    (hwf : WFGate nQ nC g = true) :
    ∃ deps, schedDeps nQ rm g = some deps ∧ ∀ d ∈ deps, d < nQ + nC := by
  cases ht : g.type with
  | none => simp [WFGate, ht] at hwf
  | some t =>
    cases t
    case CNOT =>
      simp only [WFGate, ht, Bool.and_eq_true] at hwf
      obtain ⟨c, hc, hcb⟩ := option_any_lt hwf.1
      obtain ⟨t2, htg, htb⟩ := option_any_lt hwf.2
      have hd : deps_of g = some [c, t2] := by simp [deps_of, ht, hc, htg]
      have hca : classicalAdd nQ g [c, t2] = [c, t2] := by simp [classicalAdd, ht]
      refine ⟨_, schedDeps_eq hd, ?_⟩
      rw [hca]
      exact ite_widen_bound rm
        (by intro d hd2; simp at hd2; rcases hd2 with h | h <;> omega)
    case CZ =>
      simp only [WFGate, ht, Bool.and_eq_true] at hwf
      obtain ⟨c, hc, hcb⟩ := option_any_lt hwf.1
      obtain ⟨t2, htg, htb⟩ := option_any_lt hwf.2
      have hd : deps_of g = some [c, t2] := by simp [deps_of, ht, hc, htg]
      have hca : classicalAdd nQ g [c, t2] = [c, t2] := by simp [classicalAdd, ht]
      refine ⟨_, schedDeps_eq hd, ?_⟩
      rw [hca]
      exact ite_widen_bound rm
        (by intro d hd2; simp at hd2; rcases hd2 with h | h <;> omega)
    case Tof =>
      simp only [WFGate, ht, Bool.and_eq_true] at hwf
      obtain ⟨⟨h1, h2⟩, h3⟩ := hwf
      obtain ⟨c1, hc1, hc1b⟩ := option_any_lt h1
      obtain ⟨c2, hc2, hc2b⟩ := option_any_lt h2
      obtain ⟨t2, htg, htb⟩ := option_any_lt h3
      have hd : deps_of g = some [c1, c2, t2] := by simp [deps_of, ht, hc1, hc2, htg]
      have hca : classicalAdd nQ g [c1, c2, t2] = [c1, c2, t2] := by
        simp [classicalAdd, ht]
      refine ⟨_, schedDeps_eq hd, ?_⟩
      rw [hca]
      exact ite_widen_bound rm
        (by intro d hd2; simp at hd2; rcases hd2 with h | h | h <;> omega)
    case MEASURE =>
      simp only [WFGate, ht, Bool.and_eq_true] at hwf
      obtain ⟨q, hq, hqb⟩ := option_any_lt hwf.1
      obtain ⟨cb, hcb, hcbb⟩ := option_any_lt hwf.2
      have hd : deps_of g = some [q] := by simp [deps_of, ht, hq]
      have hca : classicalAdd nQ g [q] = [q] ++ [nQ + cb] := by
        simp [classicalAdd, ht, hcb]
      refine ⟨_, schedDeps_eq hd, ?_⟩
      rw [hca]
      exact ite_widen_bound rm
        (by intro d hd2; simp at hd2; rcases hd2 with h | h <;> omega)
    case CONDITIONAL =>
      simp only [WFGate, ht, Bool.and_eq_true] at hwf
      obtain ⟨t2, htg, htb⟩ := option_any_lt hwf.1
      obtain ⟨cb, hcb, hcbb⟩ := option_any_lt hwf.2
      have hd : deps_of g = some [t2] := by simp [deps_of, ht, htg]
      have hca : classicalAdd nQ g [t2] = [t2] ++ [nQ + cb] := by
        simp [classicalAdd, ht, hcb]
      refine ⟨_, schedDeps_eq hd, ?_⟩
      rw [hca]
      exact ite_widen_bound rm
        (by intro d hd2; simp at hd2; rcases hd2 with h | h <;> omega)
    all_goals
      cases htg : g.target with
      | none =>
        have hd : deps_of g = some [] := by simp [deps_of, ht, htg]
        have hca : classicalAdd nQ g [] = [] := by simp [classicalAdd, ht]
        refine ⟨_, schedDeps_eq hd, ?_⟩
        rw [hca]
        exact ite_widen_bound rm (by intro d hd2; simp at hd2)
      | some t2 =>
        have htb : t2 < nQ := by simpa [WFGate, ht, htg] using hwf
        have hd : deps_of g = some [t2] := by simp [deps_of, ht, htg]
        have hca : classicalAdd nQ g [t2] = [t2] := by simp [classicalAdd, ht]
        refine ⟨_, schedDeps_eq hd, ?_⟩
        rw [hca]
        exact ite_widen_bound rm (by intro d hd2; simp at hd2; omega)

/-! ### Scheduling success, levels nonnegative, contiguity -/

theorem schedGo_cons_eq {nQ : Nat} {rm : Bool} {g : Gate} {gs : List Gate}
    {lvl : List Int} {deps : List Nat}
    (hd : schedDeps nQ rm g = some deps)
    (hall : (deps.all (fun d => d < lvl.length)) = true) :
    schedGo nQ rm (g :: gs) lvl =
      (schedGo nQ rm gs
          (writeAll lvl deps (1 + listMaxD (readLevels lvl deps)))).map
        (fun rest => (1 + listMaxD (readLevels lvl deps)) :: rest) := by
  rw [schedGo_cons, hd]
  dsimp only
  rw [if_pos hall]
  cases schedGo nQ rm gs (writeAll lvl deps (1 + listMaxD (readLevels lvl deps))) <;> rfl

theorem schedGo_success {nQ : Nat} {rm : Bool} (gs : List Gate) :
    ∀ (lvl : List Int),
      (∀ g ∈ gs, ∃ deps, schedDeps nQ rm g = some deps ∧
        ∀ d ∈ deps, d < lvl.length) →
      (∀ w : Nat, -1 ≤ lvl.getD w (-1)) →
      ∃ out, schedGo nQ rm gs lvl = some out ∧ out.length = gs.length ∧
        ∀ j, j < out.length → 0 ≤ out.getD j 0 := by
  induction gs with
  | nil =>
    intro lvl _ _
    exact ⟨[], rfl, rfl, by intro j hj; simp at hj⟩
  | cons g gs ih =>
    intro lvl hdeps hinv
    obtain ⟨deps, hd, hb⟩ := hdeps g (List.mem_cons_self g gs)
    have hall : (deps.all (fun d => d < lvl.length)) = true := by
      rw [List.all_eq_true]
      intro d hdm
      exact decide_eq_true (hb d hdm)
    have hm0 : 0 ≤ 1 + listMaxD (readLevels lvl deps) := by
      have hmax : -1 ≤ listMaxD (readLevels lvl deps) := by
        apply neg_one_le_listMaxD
        intro x hx
        obtain ⟨d, _, hdx⟩ := List.mem_map.mp hx
        rw [← hdx]
        exact hinv d
      omega
    have hinv2 : ∀ w : Nat,
        -1 ≤ (writeAll lvl deps (1 + listMaxD (readLevels lvl deps))).getD w (-1) := by
      intro w
      rw [writeAll_getD]
      by_cases hc : w ∈ deps ∧ w < lvl.length
      · rw [if_pos hc]; omega
      · rw [if_neg hc]; exact hinv w
    have hdeps2 : ∀ g2 ∈ gs, ∃ deps2, schedDeps nQ rm g2 = some deps2 ∧
        ∀ d ∈ deps2,
          d < (writeAll lvl deps (1 + listMaxD (readLevels lvl deps))).length := by
      intro g2 hg2
      obtain ⟨deps2, hd2, hb2⟩ := hdeps g2 (List.mem_cons_of_mem g hg2)
      refine ⟨deps2, hd2, ?_⟩
      rw [writeAll_length]
      exact hb2
    obtain ⟨rest, hr, hlen, hpos⟩ :=
      ih (writeAll lvl deps (1 + listMaxD (readLevels lvl deps))) hdeps2 hinv2
    refine ⟨(1 + listMaxD (readLevels lvl deps)) :: rest, ?_, by simp [hlen], ?_⟩
    · rw [schedGo_cons_eq hd hall, hr]
      rfl
    · intro j hj
      cases j with
      | zero => exact hm0
      | succ j2 =>
        have : j2 < rest.length := by
          simp at hj
          omega
        exact hpos j2 this

theorem schedGo_descent {nQ : Nat} {rm : Bool} (gs : List Gate) :
    ∀ (lvl out : List Int) (S : Int → Prop),
      schedGo nQ rm gs lvl = some out →
      (∀ w : Nat, w < lvl.length → lvl.getD w (-1) = -1 ∨ S (lvl.getD w (-1))) →
      ∀ j, j < out.length →
        out.getD j 0 = 0 ∨ S (out.getD j 0 - 1) ∨
          ∃ i, i < j ∧ out.getD i 0 = out.getD j 0 - 1 := by
  induction gs with
  | nil =>
    intro lvl out S h _
    rw [schedGo_nil] at h
    cases h
    intro j hj
    simp at hj
  | cons g gs ih =>
    intro lvl out S h hS j hj
    obtain ⟨deps, rest, hd, hall, hr, hout⟩ := schedGo_cons_inv h
    subst hout
    cases j with
    | zero =>
      have hc0 : (((1 + listMaxD (readLevels lvl deps))) :: rest).getD 0 0
          = 1 + listMaxD (readLevels lvl deps) := rfl
      rw [hc0]
      by_cases hrd : readLevels lvl deps = []
      · left
        rw [hrd]
        simp [listMaxD]
      · have hmem := listMaxD_mem hrd
        obtain ⟨d, hdm, hdx⟩ := List.mem_map.mp hmem
        have hdlt : d < lvl.length :=
          of_decide_eq_true (List.all_eq_true.mp hall d hdm)
        rcases hS d hdlt with h1 | h1
        · left
          rw [h1] at hdx
          omega
        · right; left
          rw [hdx] at h1
          have : 1 + listMaxD (readLevels lvl deps) - 1
              = listMaxD (readLevels lvl deps) := by omega
          rw [this]
          exact h1
    | succ j2 =>
      have hj2 : j2 < rest.length := by
        simp at hj
        omega
      have hS2 : ∀ w : Nat,
          w < (writeAll lvl deps (1 + listMaxD (readLevels lvl deps))).length →
          (writeAll lvl deps (1 + listMaxD (readLevels lvl deps))).getD w (-1) = -1 ∨
            (fun v => S v ∨ v = 1 + listMaxD (readLevels lvl deps))
              ((writeAll lvl deps (1 + listMaxD (readLevels lvl deps))).getD w (-1)) := by
        intro w hw
        rw [writeAll_length] at hw
        rw [writeAll_getD]
        by_cases hc : w ∈ deps ∧ w < lvl.length
        · rw [if_pos hc]
          exact Or.inr (Or.inr rfl)
        · rw [if_neg hc]
          rcases hS w hw with h1 | h1
          · exact Or.inl h1
          · exact Or.inr (Or.inl h1)
      have htail := ih _ _
        (fun v => S v ∨ v = 1 + listMaxD (readLevels lvl deps)) hr hS2 j2 hj2
      have hcj : (((1 + listMaxD (readLevels lvl deps))) :: rest).getD (j2 + 1) 0
          = rest.getD j2 0 := rfl
      have hc0 : (((1 + listMaxD (readLevels lvl deps))) :: rest).getD 0 0
          = 1 + listMaxD (readLevels lvl deps) := rfl
      rw [hcj]
      rcases htail with h1 | h1 | ⟨i, hi, hival⟩
      · exact Or.inl h1
      · rcases h1 with h1 | h1
        · exact Or.inr (Or.inl h1)
        · refine Or.inr (Or.inr ⟨0, Nat.succ_pos j2, ?_⟩)
          rw [hc0, h1]
      · refine Or.inr (Or.inr ⟨i + 1, Nat.succ_lt_succ hi, ?_⟩)
        have hci : (((1 + listMaxD (readLevels lvl deps))) :: rest).getD (i + 1) 0
            = rest.getD i 0 := rfl
        rw [hci, hival]

theorem levels_contiguous {out : List Int}
    (hdesc : ∀ j, j < out.length →
      out.getD j 0 = 0 ∨ ∃ i, i < j ∧ out.getD i 0 = out.getD j 0 - 1) :
    ∀ j, j < out.length → ∀ k : Int, 0 ≤ k → k ≤ out.getD j 0 →
      ∃ i, i < out.length ∧ out.getD i 0 = k := by
  intro j
  induction j using Nat.strong_induction_on with
  | _ j ih =>
    intro hj k hk0 hkle
    by_cases hke : k = out.getD j 0
    · exact ⟨j, hj, hke.symm⟩
    · have hklt : k < out.getD j 0 := lt_of_le_of_ne hkle hke
      rcases hdesc j hj with h0 | ⟨i, hij, hi⟩
      · omega
      · exact ih i hij (Nat.lt_trans hij hj) k hk0 (by rw [hi]; omega)

/-! ### Composition facts -/

theorem appendLoop_nil (qOff cOff : Nat) (c : QuantumCircuit) :
    appendLoop qOff cOff c [] = (c, none) := rfl

theorem appendLoop_cons (qOff cOff : Nat) (c : QuantumCircuit) (g : Gate)
    (gs : List Gate) :
    appendLoop qOff cOff c (g :: gs) =
      match shiftGate qOff cOff g with
      | some g2 => appendLoop qOff cOff { c with gates := c.gates ++ [g2] } gs
      | none => (c, some (PyError.keyError "missing gate field")) := rfl

theorem appendLoop_eq {qOff cOff : Nat} (gs : List Gate) :
    ∀ (c : QuantumCircuit) (sh : List Gate),
      gs.mapM (shiftGate qOff cOff) = some sh →
      appendLoop qOff cOff c gs = ({ c with gates := c.gates ++ sh }, none) := by
  induction gs with
  | nil =>
    intro c sh h
    rw [List.mapM_nil] at h
    simp at h
    subst h
    simp [appendLoop_nil]
  | cons g gs ih =>
    intro c sh h
    rw [List.mapM_cons] at h
    cases hg : shiftGate qOff cOff g with
    | none => rw [hg] at h; simp at h
    | some g2 =>
      rw [hg] at h
      cases hgs : gs.mapM (shiftGate qOff cOff) with
      | none => rw [hgs] at h; simp at h
      | some sh2 =>
        rw [hgs] at h
        simp at h
        subst h
        rw [appendLoop_cons, hg]
        dsimp only
        rw [ih { c with gates := c.gates ++ [g2] } sh2 hgs]
        simp

theorem mapM_of_all_isSome {f : Gate → Option Gate} (gs : List Gate)
    (h : ∀ g ∈ gs, (f g).isSome = true) : ∃ sh, gs.mapM f = some sh := by
  induction gs with
  | nil => exact ⟨[], rfl⟩
  | cons g gs ih =>
    obtain ⟨g2, hg⟩ := Option.isSome_iff_exists.mp (h g (List.mem_cons_self g gs))
    obtain ⟨sh, hsh⟩ := ih (fun g2 hg2 => h g2 (List.mem_cons_of_mem g hg2))
    refine ⟨g2 :: sh, ?_⟩
    rw [List.mapM_cons, hg, hsh]
    rfl

theorem mapM_getD {f : Gate → Option Gate} (gs : List Gate) :
    ∀ (sh : List Gate), gs.mapM f = some sh →
      sh.length = gs.length ∧
      ∀ k, k < gs.length → f (gs.getD k default) = some (sh.getD k default) := by
  induction gs with
  | nil =>
    intro sh h
    rw [List.mapM_nil] at h
    simp at h
    subst h
    exact ⟨rfl, by intro k hk; simp at hk⟩
  | cons g gs ih =>
    intro sh h
    rw [List.mapM_cons] at h
    cases hg : f g with
    | none => rw [hg] at h; simp at h
    | some g2 =>
      rw [hg] at h
      cases hgs : gs.mapM f with
      | none => rw [hgs] at h; simp at h
      | some sh2 =>
        rw [hgs] at h
        simp at h
        subst h
        obtain ⟨hlen, hidx⟩ := ih sh2 hgs
        refine ⟨by simp [hlen], ?_⟩
        intro k hk
        cases k with
        | zero => exact hg
        | succ k2 =>
          have hk2 : k2 < gs.length := Nat.lt_of_succ_lt_succ hk
          exact hidx k2 hk2

theorem shiftGate_tableFields {qOff cOff : Nat} {g : Gate}
    (h : tableFields g = true) :
    ∃ g2, shiftGate qOff cOff g = some g2 ∧
      g2.type = g.type ∧
      g2.ctrl = g.ctrl.map (fun x => x + qOff) ∧
      g2.ctrl1 = g.ctrl1.map (fun x => x + qOff) ∧
      g2.ctrl2 = g.ctrl2.map (fun x => x + qOff) ∧
      g2.target = g.target.map (fun x => x + qOff) ∧
      g2.qubit = g.qubit.map (fun x => x + qOff) ∧
      g2.classical_bit = g.classical_bit.map (fun x => x + cOff) ∧
      g2.gate = g.gate := by
  cases ht : g.type with
  | none => simp [tableFields, ht] at h
  | some t =>
    cases t
    case CNOT =>
      simp only [tableFields, ht, Bool.and_eq_true, and_assoc] at h
      obtain ⟨hc, htg, h1, h2, hq, hcb⟩ := h
      obtain ⟨c, hc2⟩ := Option.isSome_iff_exists.mp hc
      obtain ⟨t2, ht2⟩ := Option.isSome_iff_exists.mp htg
      refine ⟨{ g with ctrl := some (c + qOff), target := some (t2 + qOff) },
        by simp [shiftGate, ht, hc2, ht2], ?_⟩
      simp [ht, hc2, ht2, Option.isNone_iff_eq_none.mp h1,
        Option.isNone_iff_eq_none.mp h2, Option.isNone_iff_eq_none.mp hq,
        Option.isNone_iff_eq_none.mp hcb]
    case CZ =>
      simp only [tableFields, ht, Bool.and_eq_true, and_assoc] at h
      obtain ⟨hc, htg, h1, h2, hq, hcb⟩ := h
      obtain ⟨c, hc2⟩ := Option.isSome_iff_exists.mp hc
      obtain ⟨t2, ht2⟩ := Option.isSome_iff_exists.mp htg
      refine ⟨{ g with ctrl := some (c + qOff), target := some (t2 + qOff) },
        by simp [shiftGate, ht, hc2, ht2], ?_⟩
      simp [ht, hc2, ht2, Option.isNone_iff_eq_none.mp h1,
        Option.isNone_iff_eq_none.mp h2, Option.isNone_iff_eq_none.mp hq,
        Option.isNone_iff_eq_none.mp hcb]
    case Tof =>
      simp only [tableFields, ht, Bool.and_eq_true, and_assoc] at h
      obtain ⟨h1, h2, htg, hc, hq, hcb⟩ := h
      obtain ⟨c1, hc1⟩ := Option.isSome_iff_exists.mp h1
      obtain ⟨c2, hc2⟩ := Option.isSome_iff_exists.mp h2
      obtain ⟨t2, ht2⟩ := Option.isSome_iff_exists.mp htg
      refine ⟨{ g with ctrl1 := some (c1+qOff), ctrl2 := some (c2+qOff), target := some (t2+qOff) },
        by simp [shiftGate, ht, hc1, hc2, ht2], ?_⟩
      simp [ht, hc1, hc2, ht2, Option.isNone_iff_eq_none.mp hc,
        Option.isNone_iff_eq_none.mp hq, Option.isNone_iff_eq_none.mp hcb]
    case MEASURE =>
      simp only [tableFields, ht, Bool.and_eq_true, and_assoc] at h
      obtain ⟨hq, hcb, hc, h1, h2, htg⟩ := h
      obtain ⟨q, hq2⟩ := Option.isSome_iff_exists.mp hq
      obtain ⟨cb, hcb2⟩ := Option.isSome_iff_exists.mp hcb
      refine ⟨{ g with classical_bit := some (cb + cOff), qubit := some (q + qOff) },
        by simp [shiftGate, ht, hq2, hcb2], ?_⟩
      simp [ht, hq2, hcb2, Option.isNone_iff_eq_none.mp hc,
        Option.isNone_iff_eq_none.mp h1, Option.isNone_iff_eq_none.mp h2,
        Option.isNone_iff_eq_none.mp htg]
    case CONDITIONAL =>
      simp only [tableFields, ht, Bool.and_eq_true, and_assoc] at h
      obtain ⟨hcb, htg, h1, h2, hq⟩ := h
      obtain ⟨cb, hcb2⟩ := Option.isSome_iff_exists.mp hcb
      obtain ⟨t2, ht2⟩ := Option.isSome_iff_exists.mp htg
      cases hc : g.ctrl with
      | none =>
        refine ⟨{ g with classical_bit := some (cb + cOff), target := some (t2 + qOff) },
          by simp [shiftGate, ht, hcb2, ht2, hc], ?_⟩
        simp [ht, hcb2, ht2, hc, Option.isNone_iff_eq_none.mp h1,
          Option.isNone_iff_eq_none.mp h2, Option.isNone_iff_eq_none.mp hq]
      | some c =>
        refine ⟨{ g with classical_bit := some (cb+cOff), target := some (t2+qOff), ctrl := some (c+qOff) },
          by simp [shiftGate, ht, hcb2, ht2, hc], ?_⟩
        simp [ht, hcb2, ht2, hc, Option.isNone_iff_eq_none.mp h1,
          Option.isNone_iff_eq_none.mp h2, Option.isNone_iff_eq_none.mp hq]
    all_goals
      simp only [tableFields, ht, Bool.and_eq_true, and_assoc] at h
      obtain ⟨hc, h1, h2, hq, hcb⟩ := h
      cases htg : g.target with
      | none =>
        refine ⟨g, by simp [shiftGate, ht, htg], ?_⟩
        simp [ht, htg, Option.isNone_iff_eq_none.mp hc,
          Option.isNone_iff_eq_none.mp h1, Option.isNone_iff_eq_none.mp h2,
          Option.isNone_iff_eq_none.mp hq, Option.isNone_iff_eq_none.mp hcb]
      | some t2 =>
        refine ⟨{ g with target := some (t2 + qOff) },
          by simp [shiftGate, ht, htg], ?_⟩
        simp [ht, htg, Option.isNone_iff_eq_none.mp hc,
          Option.isNone_iff_eq_none.mp h1, Option.isNone_iff_eq_none.mp h2,
          Option.isNone_iff_eq_none.mp hq, Option.isNone_iff_eq_none.mp hcb]

/-! ### Store-model facts for copy -/

theorem readGates_set_ne {hp : List Gate} {c : CircuitRef} {addr : Nat} {g2 : Gate}
    (hne : ∀ a ∈ c.gateAddrs, addr ≠ a) :
    readGates (hp.set addr g2) c = readGates hp c := by
  unfold readGates
  apply List.map_congr_left
  intro a ha
  simp [List.getElem?_set_ne (hne a ha)]

theorem readGates_append_alloc {hp m2 : List Gate} {c : CircuitRef}
    (hv : ∀ a ∈ c.gateAddrs, a < hp.length) :
    readGates (hp ++ m2) c = readGates hp c := by
  unfold readGates
  apply List.map_congr_left
  intro a ha
  simp [List.getElem?_append_left (hv a ha)]

theorem append_def (self other : QuantumCircuit) :
    append self other =
      appendLoop self.n_qubits self.n_classical_bits
        { self with
          n_qubits := max self.n_qubits (other.n_qubits + self.n_qubits),
          n_classical_bits := self.n_classical_bits + other.n_classical_bits }
        other.gates := rfl

theorem getD_replicate_neg_one (n w : Nat) :
    (List.replicate n (-1 : Int)).getD w (-1) = -1 := by
  simp [List.getD_eq_getElem?_getD, List.getElem?_replicate]
  split <;> rfl

/-! ### The claims -/

/-- C1: the scheduler walks the operations in circuit order over a per-wire
current-level array initialized to -1, assigning each operation the level
`1 + max(currentLevel[w] for w in its possibly-widened dependency set)`, or
`0` when that set is empty (the formula `specLevel`); in particular
Hadamard(q0);PauliX(q0) schedules to levels 0,1 and Hadamard(q0);Hadamard(q1)
to levels 0,0. -/
theorem C1_scheduler_levels :
    (∀ (nQ : Nat) (rm : Bool) (g : Gate) (gs : List Gate) (lvl : List Int)
        (deps : List Nat),
      schedDeps nQ rm g = some deps →
      (deps.all (fun d => d < lvl.length)) = true →
      schedGo nQ rm (g :: gs) lvl =
        (schedGo nQ rm gs (writeAll lvl deps (specLevel lvl deps))).map
          (fun rest => specLevel lvl deps :: rest)) ∧
    schedule_gates circHX true = some [0, 1] ∧
    schedule_gates circHH true = some [0, 0] := by
  refine ⟨?_, by decide, by decide⟩
  intro nQ rm g gs lvl deps hd hall
  have hspec : specLevel lvl deps = 1 + listMaxD (readLevels lvl deps) := by
    by_cases hdeps : deps = []
    · subst hdeps
      simp [specLevel, readLevels, listMaxD]
    · rw [specLevel, if_neg hdeps]
  rw [hspec]
  exact schedGo_cons_eq hd hall

/-- Witness for C1: the recurrence instantiated at the head step of the
H(q0);X(q0) schedule. -/
theorem C1_witness :
    schedGo 1 true [hGate 0, xGate 0] [-1] =
      (schedGo 1 true [xGate 0] (writeAll [-1] [0, 0] (specLevel [-1] [0, 0]))).map
        (fun rest => specLevel [-1] [0, 0] :: rest) :=
  C1_scheduler_levels.1 1 true (hGate 0) [xGate 0] [-1] [0, 0] (by decide) (by decide)

/-- C2 counterexample: a conditional-CNOT with ctrl = 0, target = 2,
classicalBit = 0 in a 3-qubit scheduling context; its dependency set is
{2, 3} and does not contain the ctrl wire 0, though the claim requires it. -/
theorem C2_counterexample :
    (condCnotGate 0 0 2).ctrl = some 0 ∧
    schedDeps 3 true (condCnotGate 0 0 2) = some [2, 3, 2, 3] ∧
    (0 : Nat) ∉ [2, 3, 2, 3] ∧
    schedDeps 3 false (condCnotGate 0 0 2) = some [2, 3] ∧
    (0 : Nat) ∉ [2, 3] := by
  exact ⟨rfl, by decide, by decide, by decide, by decide⟩

/-- C2 amended: for a Conditional operation carrying `classical_bit` and
`target` (target a qubit wire), the scheduler's dependency set consists of
exactly the target wire and the classical wire nQubits + classicalBit; the
ctrl field is never added by the dependency resolver. -/
theorem C2_conditional_deps :
    ∀ (nQ : Nat) (rm : Bool) (g : Gate) (t cb : Nat),
      g.type = some GateType.CONDITIONAL → g.target = some t →
      g.classical_bit = some cb → t < nQ →
      ∃ deps, schedDeps nQ rm g = some deps ∧
        ∀ d, d ∈ deps ↔ (d = t ∨ d = nQ + cb) := by
  intro nQ rm g t cb ht htg hcb htlt
  have hd : deps_of g = some [t] := by simp [deps_of, ht, htg]
  have hca : classicalAdd nQ g [t] = [t, nQ + cb] := by
    simp [classicalAdd, ht, hcb]
  refine ⟨_, schedDeps_eq hd, ?_⟩
  rw [hca]
  intro d
  cases rm with
  | false => simp
  | true =>
    simp only [if_pos]
    constructor
    · intro hmem
      rcases mem_widen.mp hmem with h | h | h
      · simpa using h
      · obtain ⟨a, ha, b, hb, haq, hbq, haw, hwb⟩ := h
        simp at ha hb
        have hat : a = t := by rcases ha with h2 | h2; exact h2; omega
        have hbt : b = t := by rcases hb with h2 | h2; exact h2; omega
        subst hat
        subst hbt
        left
        omega
      · obtain ⟨a, ha, b, hb, haq, hbq, haw, hwb⟩ := h
        simp at ha hb
        have hat : a = nQ + cb := by rcases ha with h2 | h2; omega; exact h2
        have hbt : b = nQ + cb := by rcases hb with h2 | h2; omega; exact h2
        subst hat
        subst hbt
        right
        omega
    · intro hd2
      apply mem_widen.mpr
      left
      rcases hd2 with h | h <;> simp [h]

/-- Witness for C2's amended statement at a concrete conditional-CNOT. -/
theorem C2_witness :
    ∃ deps, schedDeps 3 true (condCnotGate 0 1 2) = some deps ∧
      ∀ d, d ∈ deps ↔ (d = 2 ∨ d = 3 + 0) :=
  C2_conditional_deps 3 true (condCnotGate 0 1 2) 2 0 rfl rfl rfl (by decide)

/-- C3 counterexample: `add_gate` accepts a CNOT dictionary with no operand
fields at all, and a Hadamard whose target wire 5 is far outside a 0-qubit
circuit; the claim requires both to fail with InvalidOperation. -/
theorem C3_counterexample :
    add_gate { n_qubits := 0 } bareCnot
      = Except.ok { n_qubits := 0, gates := [bareCnot] } ∧
    add_gate { n_qubits := 0 } (hGate 5)
      = Except.ok { n_qubits := 0, gates := [hGate 5] } := by
  exact ⟨rfl, rfl⟩

/-- C3 amended: append validates only the presence of the `type` field; it
fails iff `type` is absent and otherwise appends a copy of the operation
unconditionally, with no per-kind field check and no bounds check. -/
theorem C3_add_gate_spec :
    ∀ (c : QuantumCircuit) (g : Gate),
      (g.type = none → ∃ e, add_gate c g = Except.error e) ∧
      (g.type ≠ none → add_gate c g = Except.ok { c with gates := c.gates ++ [g] }) := by
  intro c g
  constructor
  · intro h
    exact ⟨PyError.valueError "Gate dictionary must include a type field of GateType.",
      by simp [add_gate, h]⟩
  · intro h
    cases ht : g.type with
    | none => exact absurd ht h
    | some t => simp [add_gate, ht]

/-- Witness for C3's amended statement: a typeless gate is rejected, a typed
out-of-bounds gate is appended. -/
theorem C3_witness :
    (∃ e, add_gate { n_qubits := 0 } { } = Except.error e) ∧
    add_gate { n_qubits := 0 } (hGate 7)
      = Except.ok { n_qubits := 0, gates := [hGate 7] } :=
  ⟨(C3_add_gate_spec { n_qubits := 0 } { }).1 rfl,
   (C3_add_gate_spec { n_qubits := 0 } (hGate 7)).2 (by simp [hGate])⟩

/-- C4: with overlap suppression on, the scheduling dependency set is the
suppression-off set widened, per subrange (qubit wires below nQubits and
classical wires at or above it), to the full contiguous span between that
subrange's minimum and maximum; and the spec's example CNOT(0,3);H(2)
schedules H to level 1 with suppression on and to level 0 with it off. -/
theorem C4_overlap_suppression :
    (∀ (nQ : Nat) (g : Gate) (deps0 deps1 : List Nat),
      schedDeps nQ false g = some deps0 →
      schedDeps nQ true g = some deps1 →
      ∀ w, w ∈ deps1 ↔ (w ∈ deps0 ∨
        (∃ a ∈ deps0, ∃ b ∈ deps0, a < nQ ∧ b < nQ ∧ a ≤ w ∧ w ≤ b) ∨
        (∃ a ∈ deps0, ∃ b ∈ deps0, nQ ≤ a ∧ nQ ≤ b ∧ a ≤ w ∧ w ≤ b))) ∧
    schedule_gates circC4 true = some [0, 1] ∧
    schedule_gates circC4 false = some [0, 0] := by
  refine ⟨?_, by decide, by decide⟩
  intro nQ g deps0 deps1 h0 h1 w
  rw [schedDeps] at h0 h1
  cases hd : deps_of g with
  | none =>
    rw [hd] at h0
    simp at h0
  | some base =>
    rw [hd] at h0 h1
    simp at h0 h1
    subst h0
    subst h1
    exact mem_widen

/-- Witness for C4's widening characterization at the CNOT(0,3) example. -/
theorem C4_witness :
    2 ∈ [0, 3, 0, 1, 2, 3] ↔ ((2 : Nat) ∈ [0, 3] ∨
      (∃ a ∈ [0, 3], ∃ b ∈ [0, 3], a < 4 ∧ b < 4 ∧ a ≤ 2 ∧ 2 ≤ b) ∨
      (∃ a ∈ [0, 3], ∃ b ∈ [0, 3], 4 ≤ a ∧ 4 ≤ b ∧ a ≤ 2 ∧ 2 ≤ b)) :=
  C4_overlap_suppression.1 4 (cnotGate 0 3) [0, 3] [0, 3, 0, 1, 2, 3]
    (by decide) (by decide) 2

/-- C5: composition sets nQubits to max(self.nQubits, other.nQubits +
qubitOffset) and adds other's classical-bit count, and appends each copied
operation with its qubit-typed fields (ctrl, ctrl1, ctrl2, target, qubit)
shifted by qubitOffset and classicalBit shifted by classicalOffset, per the
variant field table; the spec's Measure example yields 4 qubits, 1 classical
bit and Measure(qubit = 3, classicalBit = 0). -/
theorem C5_append_shifts :
    (∀ (self other : QuantumCircuit),
      (∀ g ∈ other.gates, tableFields g = true) →
      ∃ sh, other.gates.mapM (shiftGate self.n_qubits self.n_classical_bits) = some sh ∧
        append self other =
          ({ n_qubits := max self.n_qubits (other.n_qubits + self.n_qubits),
             n_classical_bits := self.n_classical_bits + other.n_classical_bits,
             gates := self.gates ++ sh }, none) ∧
        sh.length = other.gates.length ∧
        (∀ k, k < other.gates.length →
          (sh.getD k default).type = (other.gates.getD k default).type ∧
          (sh.getD k default).ctrl
            = (other.gates.getD k default).ctrl.map (fun x => x + self.n_qubits) ∧
          (sh.getD k default).ctrl1
            = (other.gates.getD k default).ctrl1.map (fun x => x + self.n_qubits) ∧
          (sh.getD k default).ctrl2
            = (other.gates.getD k default).ctrl2.map (fun x => x + self.n_qubits) ∧
          (sh.getD k default).target
            = (other.gates.getD k default).target.map (fun x => x + self.n_qubits) ∧
          (sh.getD k default).qubit
            = (other.gates.getD k default).qubit.map (fun x => x + self.n_qubits) ∧
          (sh.getD k default).classical_bit
            = (other.gates.getD k default).classical_bit.map
                (fun x => x + self.n_classical_bits) ∧
          (sh.getD k default).gate = (other.gates.getD k default).gate)) ∧
    append circB circA
      = ({ n_qubits := 4, n_classical_bits := 1,
           gates := [cnotGate 0 1, measureGate 3 0] }, none) := by
  refine ⟨?_, by decide⟩
  intro self other htf
  have hsome : ∀ g ∈ other.gates,
      (shiftGate self.n_qubits self.n_classical_bits g).isSome = true := by
    intro g hg
    obtain ⟨g2, hg2, _⟩ := shiftGate_tableFields (htf g hg)
    rw [hg2]
    rfl
  obtain ⟨sh, hsh⟩ := mapM_of_all_isSome other.gates hsome
  obtain ⟨hlen, hidx⟩ := mapM_getD other.gates sh hsh
  refine ⟨sh, hsh, ?_, hlen, ?_⟩
  · rw [append_def, appendLoop_eq other.gates _ sh hsh]
  · intro k hk
    have hmem : other.gates.getD k default ∈ other.gates := by
      rw [List.getD_eq_getElem _ _ hk]
      exact List.getElem_mem hk
    obtain ⟨g2, hg2, hty, hc, hc1, hc2, htg, hq, hcb, hgate⟩ :=
      shiftGate_tableFields (htf _ hmem)
    have hval := hidx k hk
    rw [hg2] at hval
    have hg2eq : g2 = sh.getD k default := Option.some.inj hval
    subst hg2eq
    exact ⟨hty, hc, hc1, hc2, htg, hq, hcb, hgate⟩

/-- Witness for C5: the spec's composition example discharges the
table-shape hypothesis; the general theorem then gives full success. -/
theorem C5_witness : (append circB circA).2 = none := by
  obtain ⟨sh, _, heq, _⟩ := C5_append_shifts.1 circB circA (by decide)
  rw [heq]

/-- C6 counterexample: composing circBad (a Hadamard followed by a CNOT
dictionary with missing operand fields) onto circRecv fails, yet the
receiver has been modified — its qubit count was updated and the first
operation was shifted and appended while the second was not, so the failing
composition is neither complete nor a no-op. -/
theorem C6_counterexample :
    (append circRecv circBad).2 = some (PyError.keyError "missing gate field") ∧
    (append circRecv circBad).1 ≠ circRecv ∧
    (append circRecv circBad).1.n_qubits = 2 ∧ circRecv.n_qubits = 1 ∧
    (append circRecv circBad).1.gates = [hGate 1] ∧
    circRecv.gates.length = 0 ∧ circBad.gates.length = 2 := by
  exact ⟨by decide, by decide, by decide, by decide, by decide, by decide, by decide⟩

/-- C6 amended: appending a non-Circuit value fails with a TypeError and
leaves the receiver unmodified, and a composition in which every copied
operation carries its kind-required fields always fully succeeds; a
composition failing on an operation with a missing required field, however,
can leave the receiver partially modified. -/
theorem C6_append_atomicity :
    (∀ (self : QuantumCircuit) (tag : String),
      appendDyn self (PyValue.nonCircuit tag)
        = (self, some (PyError.typeError "Can only append another QuantumCircuit"))) ∧
    (∀ (self other : QuantumCircuit),
      (∀ g ∈ other.gates,
        (shiftGate self.n_qubits self.n_classical_bits g).isSome = true) →
      (append self other).2 = none) := by
  constructor
  · intro self tag
    rfl
  · intro self other hall
    obtain ⟨sh, hsh⟩ := mapM_of_all_isSome other.gates hall
    rw [append_def, appendLoop_eq other.gates _ sh hsh]

/-- Witness for C6: a non-circuit append on a concrete receiver, and a
concrete fully-successful composition. -/
theorem C6_witness :
    appendDyn circRecv (PyValue.nonCircuit "list")
      = (circRecv, some (PyError.typeError "Can only append another QuantumCircuit")) ∧
    (append circRecv circHX).2 = none :=
  ⟨C6_append_atomicity.1 circRecv "list",
   C6_append_atomicity.2 circRecv circHX (by decide)⟩

/-- C7: in the store model, copy produces an independent deep copy — equal
wire counts and gate contents, and mutating a gate through one circuit's
addresses (or allocating behind the store) never changes what the other
circuit reads. -/
theorem C7_copy_independent :
    ∀ (h : List Gate) (c : CircuitRef),
      (∀ a ∈ c.gateAddrs, a < h.length) →
      (copyCirc h c).2.n_qubits = c.n_qubits ∧
      (copyCirc h c).2.n_classical_bits = c.n_classical_bits ∧
      (copyCirc h c).2.gateAddrs.length = c.gateAddrs.length ∧
      readGates (copyCirc h c).1 (copyCirc h c).2 = readGates h c ∧
      readGates (copyCirc h c).1 c = readGates h c ∧
      (∀ addr g2, addr ∈ (copyCirc h c).2.gateAddrs →
        readGates (setGateAt (copyCirc h c).1 addr g2) c = readGates h c) ∧
      (∀ addr g2, addr ∈ c.gateAddrs →
        readGates (setGateAt (copyCirc h c).1 addr g2) (copyCirc h c).2
          = readGates (copyCirc h c).1 (copyCirc h c).2) ∧
      (∀ gNew, readGates ((copyCirc h c).1 ++ [gNew]) c = readGates h c) := by
  intro h c hv
  have hfresh : ∀ addr ∈ (copyCirc h c).2.gateAddrs, h.length ≤ addr := by
    intro addr haddr
    simp only [copyCirc, List.mem_map, List.mem_range] at haddr
    obtain ⟨k, _, hk⟩ := haddr
    omega
  have hcopy : readGates (copyCirc h c).1 (copyCirc h c).2 = readGates h c := by
    apply List.ext_getElem
    · simp [copyCirc, readGates]
    · intro k h1 h2
      have hkn : k < c.gateAddrs.length := by
        simpa [readGates] using h2
      simp only [readGates, copyCirc, List.getElem_map, List.getElem_range]
      rw [List.get?_eq_getElem?, List.get?_eq_getElem?,
        List.getElem?_append_right (by omega : h.length ≤ h.length + k)]
      have hsub : h.length + k - h.length = k := by omega
      rw [hsub, List.getElem?_map, List.getElem?_eq_getElem hkn]
      have hlt := hv _ (List.getElem_mem hkn)
      rw [List.getElem?_eq_getElem hlt]
      simp [List.get?_eq_getElem?, List.getElem?_eq_getElem hlt]
  refine ⟨rfl, rfl, by simp [copyCirc], hcopy, ?_, ?_, ?_, ?_⟩
  · exact readGates_append_alloc hv
  · intro addr g2 haddr
    have := hfresh addr haddr
    rw [setGateAt, readGates_set_ne (by intro a ha; have := hv a ha; omega)]
    exact readGates_append_alloc hv
  · intro addr g2 haddr
    have haddrlt := hv addr haddr
    rw [setGateAt, readGates_set_ne]
    intro a ha
    have := hfresh a ha
    omega
  · intro gNew
    have h2 : readGates ((copyCirc h c).1 ++ [gNew]) c
        = readGates (copyCirc h c).1 c := by
      apply readGates_append_alloc
      intro a ha
      have := hv a ha
      simp only [copyCirc, List.length_append, List.length_map]
      omega
    rw [h2]
    exact readGates_append_alloc hv

/-- Witness for C7 at a concrete one-gate circuit and store. -/
theorem C7_witness :
    readGates (copyCirc [hGate 0] { n_qubits := 1, gateAddrs := [0] }).1
        (copyCirc [hGate 0] { n_qubits := 1, gateAddrs := [0] }).2
      = readGates [hGate 0] { n_qubits := 1, gateAddrs := [0] } :=
  (C7_copy_independent [hGate 0] { n_qubits := 1, gateAddrs := [0] }
    (by decide)).2.2.2.1

/-- C8: causal ordering — in a successful schedule, whenever two operations
at indices i < j have intersecting scheduling dependency-wire sets, the
later operation's level is strictly greater, so they are never placed in
the same column. -/
theorem C8_causal_ordering :
    ∀ (c : QuantumCircuit) (rm : Bool) (out : List Int) (i j w : Nat)
      (di dj : List Nat),
      schedule_gates c rm = some out →
      i < j → j < c.gates.length →
      schedDeps c.n_qubits rm (c.gates.getD i default) = some di →
      schedDeps c.n_qubits rm (c.gates.getD j default) = some dj →
      w ∈ di → w ∈ dj →
      out.getD i 0 < out.getD j 0 := by
  intro c rm out i j w di dj h hij hj hdi hdj hwi hwj
  exact schedGo_causal c.gates _ _ h i j di dj w hij hj hdi hdj hwi hwj

/-- Witness for C8: H(q0);X(q0) share wire 0 and get levels 0 < 1. -/
theorem C8_witness :
    schedule_gates circHX true = some [0, 1] ∧
    ([0, 1] : List Int).getD 0 0 < ([0, 1] : List Int).getD 1 0 :=
  ⟨by decide,
   C8_causal_ordering circHX true [0, 1] 0 1 0 [0, 0] [0, 0]
     (by decide) (by decide) (by decide) (by decide) (by decide)
     (by decide) (by decide)⟩

/-- C9: a well-formed circuit always schedules with no error — the result
is a list with exactly one non-negative level per operation — and the
empty circuit schedules to the empty map regardless of wire counts. -/
theorem C9_wellformed_schedules :
    (∀ (c : QuantumCircuit) (rm : Bool),
      (∀ g ∈ c.gates, WFGate c.n_qubits c.n_classical_bits g = true) →
      ∃ out, schedule_gates c rm = some out ∧ out.length = c.gates.length ∧
        ∀ j, j < out.length → 0 ≤ out.getD j 0) ∧
    (∀ (c : QuantumCircuit) (rm : Bool), c.gates = [] →
      schedule_gates c rm = some []) := by
  constructor
  · intro c rm hwf
    apply schedGo_success
    · intro g hg
      obtain ⟨deps, hd, hb⟩ := schedDeps_WF rm (hwf g hg)
      refine ⟨deps, hd, ?_⟩
      intro d hdm
      rw [List.length_replicate]
      exact hb d hdm
    · intro w
      rw [getD_replicate_neg_one]
  · intro c rm hempty
    rw [schedule_gates, hempty, schedGo_nil]

/-- Witness for C9: the well-formed two-gate circuit circHH schedules, and
an empty five-qubit two-bit circuit yields the empty map. -/
theorem C9_witness :
    (∃ out, schedule_gates circHH true = some out ∧
      out.length = circHH.gates.length ∧
      ∀ j, j < out.length → 0 ≤ out.getD j 0) ∧
    schedule_gates { n_qubits := 5, n_classical_bits := 2 } false = some [] :=
  ⟨C9_wellformed_schedules.1 circHH true (by decide),
   C9_wellformed_schedules.2 { n_qubits := 5, n_classical_bits := 2 } false rfl⟩

/-- C10: the levels of a nonempty successful schedule form the contiguous
range from 0 to the maximum level — every integer k with 0 ≤ k ≤ maxLevel
is assigned to some operation, so the layout has no empty column. -/
theorem C10_levels_contiguous :
    ∀ (c : QuantumCircuit) (rm : Bool) (out : List Int) (k : Int),
      schedule_gates c rm = some out → out ≠ [] →
      0 ≤ k → k ≤ listMaxD out →
      ∃ i, i < out.length ∧ out.getD i 0 = k := by
  intro c rm out k h hne hk0 hkmax
  have hdesc : ∀ j, j < out.length →
      out.getD j 0 = 0 ∨ ∃ i, i < j ∧ out.getD i 0 = out.getD j 0 - 1 := by
    intro j hj
    have hstep := schedGo_descent c.gates _ _ (fun _ => False) h
      (by intro w hw; exact Or.inl (getD_replicate_neg_one _ w)) j hj
    rcases hstep with h1 | h1 | h1
    · exact Or.inl h1
    · exact absurd h1 id
    · exact Or.inr h1
  have hmem := listMaxD_mem hne
  obtain ⟨jm, hjm, hjme⟩ := List.mem_iff_getElem.mp hmem
  have hjmd : out.getD jm 0 = listMaxD out := by
    rw [List.getD_eq_getElem _ _ hjm, hjme]
  exact levels_contiguous hdesc jm hjm k hk0 (by rw [hjmd]; exact hkmax)

/-- Witness for C10: in the H(q0);X(q0) schedule the maximum level 1 and
level 0 are both occupied. -/
theorem C10_witness :
    ∃ i, i < ([0, 1] : List Int).length ∧ ([0, 1] : List Int).getD i 0 = 1 :=
  C10_levels_contiguous circHX true [0, 1] 1 (by decide) (by decide)
    (by decide) (by decide)

end QCVZ

